import Mathlib

/-!
Verification of the wavelet-matrix library (src/lib.rs).

The external succinct bit-vector (crate fid, used as a black box by the
library) is modelled as a plain list of booleans with the standard
rank/select semantics:
  rank b i   = number of positions j < i holding bit b
  select b k = position of the (k+1)-th (0-indexed k) occurrence of b,
               and the list length when there is no such occurrence
  get i      = bit at position i (false when out of range).

Symbols of type T (with Into of u64) are modelled as natural numbers;
all u64 arithmetic in the library stays within bounds, and right/left
shifts are modelled with total Nat shifts.
-/

/-- rank of bit b in the first i positions of the bit-vector. -/
def bvRank (bv : List Bool) (b : Bool) (i : Nat) : Nat :=
  ((bv.take i).filter (fun x => x == b)).length

/-- position of the (k+1)-th occurrence (0-indexed k) of bit b;
returns the length of the vector when there are fewer occurrences. -/
def bvSelect (bv : List Bool) (b : Bool) (k : Nat) : Nat :=
  match bv, k with
  | [], _ => 0
  | x :: rest, 0 => if x == b then 0 else bvSelect rest b 0 + 1
  | x :: rest, k + 1 =>
    if x == b then bvSelect rest b k + 1 else bvSelect rest b (k + 1) + 1

/-- bit at position i (false when out of range; the library only reads
in-range positions). -/
def bvGet (bv : List Bool) (i : Nat) : Bool :=
  bv.getD i false

/-- The bit of symbol c examined at row r:
source expression (c >> (size - r - 1)) & 1 > 0. -/
def symBit (size r c : Nat) : Bool :=
  (c >>> (size - r - 1)) &&& 1 != 0

/-- The loop of new_with_size: fuel is the number of remaining rows
(fuel = size - r).  Each iteration traverses zeros then ones, pushes the
examined bit of every element onto the row and routes the element into
new_zeros or new_ones; the partition entry is the new_zeros length.
Returns (rows, partitions) for rows r, r+1, ..., size-1. -/
def buildLevels (size : Nat) : Nat → Nat → List Nat → List Nat → List (List Bool) × List Nat
  | _, 0, _, _ => ([], [])
  | r, fuel + 1, zeros, ones =>
    let all := zeros ++ ones
    let bv := all.map (symBit size r)
    let newZeros := all.filter (fun c => !symBit size r c)
    let newOnes := all.filter (symBit size r)
    let rest := buildLevels size (r + 1) fuel newZeros newOnes
    (bv :: rest.1, newZeros.length :: rest.2)

structure WaveletMatrix where
  rows : List (List Bool)
  size : Nat
  len : Nat
  partitions : List Nat

/-- new_with_size(text, size). -/
def newWithSize (text : List Nat) (size : Nat) : WaveletMatrix :=
  let rp := buildLevels size 0 size text []
  { rows := rp.1, size := size, len := text.length, partitions := rp.2 }

/-- The loop of access: r is the row counter; rows and parts are
traversed in lockstep (the source reads partitions[r] while enumerating
rows; the two lists always have equal length). -/
def accessLoop (size : Nat) : Nat → List (List Bool) → List Nat → Nat → Nat → Nat
  | _, [], _, _, n => n
  | r, bv :: rows, parts, i, n =>
    if bvGet bv i then
      accessLoop size (r + 1) rows parts.tail
        (parts.headD 0 + bvRank bv true i) (n ||| (1 <<< (size - r - 1)))
    else
      accessLoop size (r + 1) rows parts.tail (bvRank bv false i) n

/-- access(k). -/
def WaveletMatrix.access (m : WaveletMatrix) (k : Nat) : Nat :=
  accessLoop m.size 0 m.rows m.partitions k 0

/-- The descending interval-endpoint chain shared by rank (applied to
both endpoints) and the first phase of select. -/
def selLoopDown (size c : Nat) : Nat → List (List Bool) → List Nat → Nat → Nat
  | _, [], _, s => s
  | r, bv :: rows, parts, s =>
    if symBit size r c then
      selLoopDown size c (r + 1) rows parts.tail (bvRank bv true s + parts.headD 0)
    else
      selLoopDown size c (r + 1) rows parts.tail (bvRank bv false s)

/-- The loop of rank, carrying both endpoints (s, e). -/
def rankLoop (size c : Nat) : Nat → List (List Bool) → List Nat → Nat × Nat → Nat × Nat
  | _, [], _, se => se
  | r, bv :: rows, parts, (s, e) =>
    if symBit size r c then
      rankLoop size c (r + 1) rows parts.tail
        (bvRank bv true s + parts.headD 0, bvRank bv true e + parts.headD 0)
    else
      rankLoop size c (r + 1) rows parts.tail (bvRank bv false s, bvRank bv false e)

/-- rank(c, k): k is clamped to len, then the interval (0, k) descends
through all rows and the result is e - s. -/
def WaveletMatrix.rank (m : WaveletMatrix) (c k : Nat) : Nat :=
  let e0 := if k < m.len then k else m.len
  let se := rankLoop m.size c 0 m.rows m.partitions (0, e0)
  se.2 - se.1

/-- rows enumerated with their index and partition entry, for the
reversed iteration of the second phase of select. -/
def enumPairs : Nat → List (List Bool) → List Nat → List (Nat × List Bool × Nat)
  | _, [], _ => []
  | r, bv :: rows, parts => (r, bv, parts.headD 0) :: enumPairs (r + 1) rows parts.tail

/-- The ascending phase of select, iterating rows in reverse order. -/
def selLoopUp (size c : Nat) : List (Nat × List Bool × Nat) → Nat → Nat
  | [], e => e
  | (r, bv, z) :: rest, e =>
    if symBit size r c then selLoopUp size c rest (bvSelect bv true (e - z))
    else selLoopUp size c rest (bvSelect bv false e)

/-- select(c, k). -/
def WaveletMatrix.select (m : WaveletMatrix) (c k : Nat) : Nat :=
  let s := selLoopDown m.size c 0 m.rows m.partitions 0
  selLoopUp m.size c (enumPairs 0 m.rows m.partitions).reverse (s + k)

/-- Safety conditions of the ascending phase of select, checked along
the same iteration: when the examined bit of c is 1 the running offset
must not drop below the partition entry (u64 subtraction e - z), and
each select1/select0 request must be within the occurrence count of the
row.  true means the unguarded arithmetic never hits its error branch. -/
def selUpSafe (size c : Nat) : List (Nat × List Bool × Nat) → Nat → Bool
  | [], _ => true
  | (r, bv, z) :: rest, e =>
    if symBit size r c then
      decide (z ≤ e) && decide (e - z < bvRank bv true bv.length) &&
        selUpSafe size c rest (bvSelect bv true (e - z))
    else
      decide (e < bvRank bv false bv.length) && selUpSafe size c rest (bvSelect bv false e)

/-- The predicate counting occurrences of symbol c: elements are
compared on their low size bits. -/
def matches2 (size c x : Nat) : Bool :=
  x % 2 ^ size == c % 2 ^ size

/-! ### Basic facts about the modelled bit-vector -/

theorem beq_false_eq (a : Bool) : (a == false) = !a := by cases a <;> rfl

theorem beq_true_eq (a : Bool) : (a == true) = a := by cases a <;> rfl

theorem bvRank_eq_countP (bv : List Bool) (b : Bool) (i : Nat) :
    bvRank bv b i = (bv.take i).countP (fun x => x == b) := by
  rw [bvRank, List.countP_eq_length_filter]

theorem bvRank_zero (bv : List Bool) (b : Bool) : bvRank bv b 0 = 0 := rfl

theorem bvRank_map (f : Nat → Bool) (l : List Nat) (b : Bool) (i : Nat) :
    bvRank (l.map f) b i = (l.take i).countP (fun x => f x == b) := by
  rw [bvRank_eq_countP, ← List.map_take, List.countP_map]
  rfl

theorem countP_take_le (p : Nat → Bool) (l : List Nat) (i : Nat) :
    (l.take i).countP p ≤ l.countP p :=
  (l.take_sublist i).countP_le p

theorem countP_take_mono (p : Nat → Bool) (l : List Nat) {i j : Nat} (h : i ≤ j) :
    (l.take i).countP p ≤ (l.take j).countP p := by
  have h2 : l.take i = (l.take j).take i := by rw [List.take_take, Nat.min_eq_left h]
  rw [h2]
  exact ((l.take j).take_sublist i).countP_le p

theorem getD_append_left {α : Type} (l1 l2 : List α) (i : Nat) (d : α) (h : i < l1.length) :
    (l1 ++ l2).getD i d = l1.getD i d := by
  simp [List.getD, List.getElem?_append, h]

theorem getD_append_right {α : Type} (l1 l2 : List α) (i : Nat) (d : α) :
    (l1 ++ l2).getD (l1.length + i) d = l2.getD i d := by
  simp [List.getD, List.getElem?_append]

theorem getD_map (f : Nat → Bool) (l : List Nat) (i : Nat) (d : Bool) (h : i < l.length) :
    (l.map f).getD i d = f (l.getD i 0) := by
  rw [List.getD_eq_getElem _ _ (by simpa using h), List.getD_eq_getElem _ _ h]
  simp

/-- The index of an element inside the filtered list is the count of
satisfying elements strictly before it. -/
theorem filter_getD_countP (q : Nat → Bool) (l : List Nat) (j : Nat) (hj : j < l.length)
    (hq : q (l.getD j 0) = true) :
    (l.take j).countP q < (l.filter q).length ∧
      (l.filter q).getD ((l.take j).countP q) 0 = l.getD j 0 := by
  induction l generalizing j with
  | nil => simp at hj
  | cons x xs ih =>
    cases j with
    | zero =>
      rw [List.getD_cons_zero] at hq
      simp [List.filter_cons_of_pos hq]
    | succ j =>
      rw [List.getD_cons_succ] at hq
      have hj2 : j < xs.length := by simpa using hj
      have ihj := ih j hj2 hq
      by_cases hx : q x = true
      · rw [List.take_succ_cons, List.countP_cons_of_pos _ _ hx, List.filter_cons_of_pos hx]
        constructor
        · simpa [Nat.add_lt_add_iff_right] using ihj.1
        · simpa [List.getD_cons_succ] using ihj.2
      · rw [List.take_succ_cons, List.countP_cons_of_neg _ _ hx, List.filter_cons_of_neg hx]
        simpa using ihj

/-- Taking, from the filtered list, as many elements as satisfy q in a
prefix gives exactly the filtered prefix. -/
theorem filter_take_countP (q : Nat → Bool) (l : List Nat) (i : Nat) :
    (l.filter q).take ((l.take i).countP q) = (l.take i).filter q := by
  induction l generalizing i with
  | nil => simp
  | cons x xs ih =>
    cases i with
    | zero => simp
    | succ i =>
      by_cases hx : q x = true
      · rw [List.take_succ_cons, List.countP_cons_of_pos _ _ hx, List.filter_cons_of_pos hx,
          List.filter_cons_of_pos hx, List.take_succ_cons, ih i]
      · rw [List.take_succ_cons, List.countP_cons_of_neg _ _ hx, List.filter_cons_of_neg hx,
          List.filter_cons_of_neg hx]
        exact ih i

theorem bvRank_cons_succ (x : Bool) (rest : List Bool) (b : Bool) (j : Nat) :
    bvRank (x :: rest) b (j + 1) = (if x == b then 1 else 0) + bvRank rest b j := by
  by_cases hx : (x == b) = true
  · simp [bvRank, List.filter_cons_of_pos hx, hx, Nat.add_comm]
  · simp [bvRank, List.filter_cons_of_neg hx, hx]

/-- rank at the position of an occurrence of b equals the select input
that recovers the position: select is a left inverse of the level map. -/
theorem bvSelect_bvRank (bv : List Bool) (b : Bool) (j : Nat) (hj : j < bv.length)
    (hb : bv.getD j false = b) :
    bvSelect bv b (bvRank bv b j) = j := by
  induction bv generalizing j with
  | nil => simp at hj
  | cons x rest ih =>
    cases j with
    | zero =>
      rw [List.getD_cons_zero] at hb
      simp [bvSelect, bvRank_zero, hb]
    | succ j =>
      rw [List.getD_cons_succ] at hb
      have hj2 : j < rest.length := by simpa using hj
      rw [bvRank_cons_succ]
      by_cases hx : (x == b) = true
      · rw [if_pos hx, Nat.add_comm 1 (bvRank rest b j)]
        show bvSelect (x :: rest) b (bvRank rest b j + 1) = j + 1
        rw [bvSelect, if_pos hx, ih j hj2 hb]
      · rw [if_neg hx, Nat.zero_add]
        cases hk : bvRank rest b j with
        | zero => rw [bvSelect, if_neg hx, ← hk, ih j hj2 hb]
        | succ k => rw [bvSelect, if_neg hx, ← hk, ih j hj2 hb]

/-- An in-range occurrence of b makes the prefix rank strictly smaller
than the occurrence count of the whole row. -/
theorem bvRank_lt_total (bv : List Bool) (b : Bool) (j : Nat) (hj : j < bv.length)
    (hb : bv.getD j false = b) :
    bvRank bv b j < bvRank bv b bv.length := by
  have hsucc : bvRank bv b (j + 1) = bvRank bv b j + 1 := by
    rw [bvRank_eq_countP, bvRank_eq_countP, List.take_succ,
      List.getElem?_eq_getElem hj]
    have hget : bv[j] = b := by
      rw [← hb, List.getD_eq_getElem _ _ hj]
    simp [List.countP_append, hget]
  have hmono : bvRank bv b (j + 1) ≤ bvRank bv b bv.length := by
    rw [bvRank_eq_countP, bvRank_eq_countP]
    have h2 : bv.take (j + 1) = (bv.take bv.length).take (j + 1) := by
      rw [List.take_take, Nat.min_eq_left hj]
    rw [h2]
    exact ((bv.take bv.length).take_sublist (j + 1)).countP_le _
  omega

/-! ### Bit arithmetic -/

theorem symBit_eq_testBit (size r c : Nat) : symBit size r c = c.testBit (size - r - 1) := by
  rw [symBit, Nat.testBit, Nat.land_comm]

theorem mod_two_pow_succ (x t : Nat) :
    x % 2 ^ (t + 1) = x % 2 ^ t + 2 ^ t * (x / 2 ^ t % 2) := by
  rw [Nat.pow_succ, Nat.mod_mul]

theorem testBit_eq_iff_of_mod_succ_eq {x y t : Nat} (h : x % 2 ^ (t + 1) = y % 2 ^ (t + 1)) :
    x % 2 ^ t = y % 2 ^ t ∧ x.testBit t = y.testBit t := by
  rw [mod_two_pow_succ, mod_two_pow_succ] at h
  have hp : 0 < 2 ^ t := Nat.pos_pow_of_pos t (by omega)
  have hx : x % 2 ^ t < 2 ^ t := Nat.mod_lt _ hp
  have hy : y % 2 ^ t < 2 ^ t := Nat.mod_lt _ hp
  have hax := Nat.mod_two_eq_zero_or_one (x / 2 ^ t)
  have hay := Nat.mod_two_eq_zero_or_one (y / 2 ^ t)
  have hbit : x / 2 ^ t % 2 = y / 2 ^ t % 2 := by
    rcases hax with h1 | h1 <;> rcases hay with h2 | h2 <;> rw [h1, h2] at h ⊢ <;> omega
  refine ⟨?_, ?_⟩
  · rw [hbit] at h
    omega
  · rw [Nat.testBit_to_div_mod, Nat.testBit_to_div_mod, hbit]

theorem mod_succ_eq_of_parts {x y t : Nat} (hmod : x % 2 ^ t = y % 2 ^ t)
    (hbit : x.testBit t = y.testBit t) : x % 2 ^ (t + 1) = y % 2 ^ (t + 1) := by
  rw [Nat.testBit_to_div_mod, Nat.testBit_to_div_mod, decide_eq_decide] at hbit
  have hax := Nat.mod_two_eq_zero_or_one (x / 2 ^ t)
  have hay := Nat.mod_two_eq_zero_or_one (y / 2 ^ t)
  have hb : x / 2 ^ t % 2 = y / 2 ^ t % 2 := by
    rcases hax with h1 | h1 <;> rcases hay with h2 | h2 <;> omega
  rw [mod_two_pow_succ, mod_two_pow_succ, hmod, hb]

theorem matches2_succ_iff (t c x : Nat) :
    matches2 (t + 1) c x = (matches2 t c x && (x.testBit t == c.testBit t)) := by
  rw [matches2, matches2, Bool.eq_iff_iff]
  simp only [beq_iff_eq, Bool.and_eq_true]
  constructor
  · exact testBit_eq_iff_of_mod_succ_eq
  · exact fun hc => mod_succ_eq_of_parts hc.1 hc.2

theorem matches2_zero (c x : Nat) : matches2 0 c x = true := by
  simp [matches2, Nat.mod_one]

theorem countP_beq_true (f : Nat → Bool) (l : List Nat) :
    (l.countP fun x => f x == true) = l.countP f := by
  apply List.countP_congr
  intro x _
  rw [beq_true_eq]

theorem countP_beq_false (f : Nat → Bool) (l : List Nat) :
    (l.countP fun x => f x == false) = l.countP (fun x => !f x) := by
  apply List.countP_congr
  intro x _
  rw [beq_false_eq]

theorem symBit_fuel {size r fuel : Nat} (h : r + (fuel + 1) = size) (c : Nat) :
    symBit size r c = c.testBit fuel := by
  rw [symBit_eq_testBit]
  congr 1
  omega

/-- Unfolding equation for one construction level. -/
theorem buildLevels_succ (size r fuel : Nat) (zs os : List Nat) :
    buildLevels size r (fuel + 1) zs os =
      (((zs ++ os).map (symBit size r)) ::
          (buildLevels size (r + 1) fuel ((zs ++ os).filter (fun c => !symBit size r c))
            ((zs ++ os).filter (symBit size r))).1,
        ((zs ++ os).filter (fun c => !symBit size r c)).length ::
          (buildLevels size (r + 1) fuel ((zs ++ os).filter (fun c => !symBit size r c))
            ((zs ++ os).filter (symBit size r))).2) := rfl

/-- The rank loop computes the descending endpoint chain on each
component of the interval independently. -/
theorem rankLoop_eq_pair (size c : Nat) (r : Nat) (rows : List (List Bool)) (parts : List Nat)
    (s e : Nat) :
    rankLoop size c r rows parts (s, e) =
      (selLoopDown size c r rows parts s, selLoopDown size c r rows parts e) := by
  induction rows generalizing r parts s e with
  | nil => rfl
  | cons bv rest ih =>
    rw [rankLoop, selLoopDown, selLoopDown]
    by_cases hb : symBit size r c = true
    · rw [if_pos hb, if_pos hb, if_pos hb, ih]
    · rw [if_neg hb, if_neg hb, if_neg hb, ih]

/-- Main descending-chain lemma: starting the endpoint chain at
boundary p (at most the level length), the final value exceeds the
chain started at 0 by exactly the number of elements in the prefix of
length p that match c on the remaining fuel bits. -/
theorem selLoopDown_spec (fuel : Nat) : ∀ (r size c : Nat) (zs os : List Nat) (p : Nat),
    r + fuel = size → p ≤ (zs ++ os).length →
    selLoopDown size c r (buildLevels size r fuel zs os).1 (buildLevels size r fuel zs os).2 p =
      selLoopDown size c r (buildLevels size r fuel zs os).1 (buildLevels size r fuel zs os).2 0 +
        ((zs ++ os).take p).countP (matches2 fuel c) := by
  induction fuel with
  | zero =>
    intro r size c zs os p hr hp
    have hcnt : ((zs ++ os).take p).countP (matches2 0 c) = ((zs ++ os).take p).length := by
      rw [List.countP_eq_length]
      exact fun x _ => matches2_zero c x
    simp only [buildLevels, selLoopDown]
    rw [hcnt, List.length_take, Nat.zero_add, Nat.min_eq_left hp]
  | succ fuel ih =>
    intro r size c zs os p hr hp
    have hr2 : (r + 1) + fuel = size := by omega
    have hsym : ∀ x, symBit size r x = x.testBit fuel := symBit_fuel hr
    rw [buildLevels_succ]
    simp only [selLoopDown, List.headD_cons, List.tail_cons, bvRank_zero, Nat.zero_add]
    set all := zs ++ os with hall
    set nz := all.filter (fun y => !symBit size r y) with hnz
    set no := all.filter (symBit size r) with hno
    have hlen : (nz ++ no).length = nz.length + no.length := List.length_append nz no
    by_cases hb : symBit size r c = true
    · simp only [if_pos hb]
      have hbt : c.testBit fuel = true := by rw [← hsym c]; exact hb
      have hcnt1 : bvRank (all.map (symBit size r)) true p =
          (all.take p).countP (symBit size r) := by
        rw [bvRank_map, countP_beq_true]
      have hle1 : (all.take p).countP (symBit size r) ≤ no.length := by
        rw [hno, ← List.countP_eq_length_filter]
        exact countP_take_le _ all p
      have hp1 : bvRank (all.map (symBit size r)) true p + nz.length ≤ (nz ++ no).length := by
        rw [hcnt1]; omega
      have hp0 : nz.length ≤ (nz ++ no).length := by omega
      rw [ih (r + 1) size c nz no (bvRank (all.map (symBit size r)) true p + nz.length) hr2 hp1,
        ih (r + 1) size c nz no nz.length hr2 hp0]
      have htake0 : (nz ++ no).take nz.length = nz := List.take_left nz no
      have htakep : (nz ++ no).take (bvRank (all.map (symBit size r)) true p + nz.length)
          = nz ++ no.take ((all.take p).countP (symBit size r)) := by
        rw [hcnt1, Nat.add_comm, List.take_append]
      have hfil : no.take ((all.take p).countP (symBit size r))
          = (all.take p).filter (symBit size r) := by
        rw [hno]
        exact filter_take_countP (symBit size r) all p
      have hkey : ((all.take p).filter (symBit size r)).countP (matches2 fuel c)
          = (all.take p).countP (matches2 (fuel + 1) c) := by
        rw [List.countP_filter]
        apply List.countP_congr
        intro x _
        rw [matches2_succ_iff, hbt, ← hsym x, beq_true_eq]
      rw [htake0, htakep, List.countP_append, hfil, hkey]
      omega
    · simp only [if_neg hb]
      have hbf0 : symBit size r c = false := by simpa using hb
      have hbf : c.testBit fuel = false := by rw [← hsym c]; exact hbf0
      have hcnt0 : bvRank (all.map (symBit size r)) false p =
          (all.take p).countP (fun y => !symBit size r y) := by
        rw [bvRank_map, countP_beq_false]
      have hle0 : (all.take p).countP (fun y => !symBit size r y) ≤ nz.length := by
        rw [hnz, ← List.countP_eq_length_filter]
        exact countP_take_le _ all p
      have hp1 : bvRank (all.map (symBit size r)) false p ≤ (nz ++ no).length := by
        rw [hcnt0]; omega
      rw [ih (r + 1) size c nz no (bvRank (all.map (symBit size r)) false p) hr2 hp1]
      have htakep : (nz ++ no).take (bvRank (all.map (symBit size r)) false p)
          = (all.take p).filter (fun y => !symBit size r y) := by
        rw [hcnt0, List.take_append_of_le_length hle0, hnz]
        exact filter_take_countP _ all p
      have hkey : ((all.take p).filter (fun y => !symBit size r y)).countP (matches2 fuel c)
          = (all.take p).countP (matches2 (fuel + 1) c) := by
        rw [List.countP_filter]
        apply List.countP_congr
        intro x _
        rw [matches2_succ_iff, hbf, ← hsym x, beq_false_eq]
      rw [htakep, hkey]

/-! ### Unfolding equations for the public operations -/

theorem rank_unfold (m : WaveletMatrix) (c k : Nat) :
    m.rank c k =
      (rankLoop m.size c 0 m.rows m.partitions (0, if k < m.len then k else m.len)).2 -
        (rankLoop m.size c 0 m.rows m.partitions (0, if k < m.len then k else m.len)).1 := rfl

theorem access_unfold (m : WaveletMatrix) (k : Nat) :
    m.access k = accessLoop m.size 0 m.rows m.partitions k 0 := rfl

theorem select_unfold (m : WaveletMatrix) (c k : Nat) :
    m.select c k = selLoopUp m.size c (enumPairs 0 m.rows m.partitions).reverse
      (selLoopDown m.size c 0 m.rows m.partitions 0 + k) := rfl

theorem newWithSize_rows (text : List Nat) (size : Nat) :
    (newWithSize text size).rows = (buildLevels size 0 size text []).1 := rfl

theorem newWithSize_partitions (text : List Nat) (size : Nat) :
    (newWithSize text size).partitions = (buildLevels size 0 size text []).2 := rfl

theorem newWithSize_size (text : List Nat) (size : Nat) :
    (newWithSize text size).size = size := rfl

theorem newWithSize_len (text : List Nat) (size : Nat) :
    (newWithSize text size).len = text.length := rfl

/-- rank computes the number of matching elements (on the low size
bits) in the clamped prefix. -/
theorem rank_correct (text : List Nat) (size c k : Nat) :
    (newWithSize text size).rank c k =
      (text.take (min k text.length)).countP (matches2 size c) := by
  rw [rank_unfold, newWithSize_size, newWithSize_rows, newWithSize_partitions, newWithSize_len,
    rankLoop_eq_pair]
  have he0 : (if k < text.length then k else text.length) ≤ (text ++ []).length := by
    rw [List.append_nil]
    split <;> omega
  rw [selLoopDown_spec size 0 size c text [] _ (by omega) he0]
  have he : (if k < text.length then k else text.length) = min k text.length := by
    split <;> omega
  rw [List.append_nil, he]
  omega

/-! ### The stable-partition forward map of one level -/

/-- An element with bit 1 at position j moves to position
(zeros length) + rank1 j of the next level, keeping its value. -/
theorem fwd_true (f : Nat → Bool) (all : List Nat) (j : Nat) (hj : j < all.length)
    (hb : f (all.getD j 0) = true) :
    (all.filter (fun y => !f y)).length + bvRank (all.map f) true j
        < ((all.filter (fun y => !f y)) ++ all.filter f).length ∧
      ((all.filter (fun y => !f y)) ++ all.filter f).getD
          ((all.filter (fun y => !f y)).length + bvRank (all.map f) true j) 0
        = all.getD j 0 := by
  have hcnt : bvRank (all.map f) true j = (all.take j).countP f := by
    rw [bvRank_map, countP_beq_true]
  obtain ⟨h1, h2⟩ := filter_getD_countP f all j hj hb
  constructor
  · rw [hcnt, List.length_append]
    omega
  · rw [hcnt, getD_append_right]
    exact h2

/-- An element with bit 0 at position j moves to position rank0 j of
the next level, keeping its value. -/
theorem fwd_false (f : Nat → Bool) (all : List Nat) (j : Nat) (hj : j < all.length)
    (hb : f (all.getD j 0) = false) :
    bvRank (all.map f) false j < (all.filter (fun y => !f y)).length ∧
      ((all.filter (fun y => !f y)) ++ all.filter f).getD (bvRank (all.map f) false j) 0
        = all.getD j 0 := by
  have hcnt : bvRank (all.map f) false j = (all.take j).countP (fun y => !f y) := by
    rw [bvRank_map, countP_beq_false]
  have hq : (fun y => !f y) (all.getD j 0) = true := by
    simp only [hb, Bool.not_false]
  obtain ⟨h1, h2⟩ := filter_getD_countP (fun y => !f y) all j hj hq
  constructor
  · rw [hcnt]
    exact h1
  · rw [hcnt, getD_append_left _ _ _ _ h1]
    exact h2

/-! ### Bit accumulation helpers for access -/

theorem two_pow_testBit_ne {t i : Nat} (h : t ≠ i) : (2 ^ t).testBit i = false := by
  simpa using Nat.testBit_two_pow_of_ne h

theorem or_mod_succ_true (acc x t : Nat) (h : x.testBit t = true) :
    acc ||| (x % 2 ^ (t + 1)) = (acc ||| (1 <<< t)) ||| (x % 2 ^ t) := by
  apply Nat.eq_of_testBit_eq
  intro i
  simp only [Nat.testBit_or, Nat.shiftLeft_eq, Nat.one_mul]
  by_cases hit : i = t
  · subst hit
    simp [Nat.testBit_mod_two_pow, h, Nat.testBit_two_pow_self]
  · by_cases hlt : i < t
    · simp [Nat.testBit_mod_two_pow, hlt, Nat.lt_succ_of_lt hlt,
        two_pow_testBit_ne (Ne.symm hit), Bool.or_assoc]
    · have h1 : ¬ i < t + 1 := by omega
      simp [Nat.testBit_mod_two_pow, hlt, h1, two_pow_testBit_ne (Ne.symm hit)]

theorem mod_succ_of_testBit_false {x t : Nat} (h : x.testBit t = false) :
    x % 2 ^ (t + 1) = x % 2 ^ t := by
  have h0 : x / 2 ^ t % 2 = 0 := by
    rcases Nat.mod_two_eq_zero_or_one (x / 2 ^ t) with h1 | h1
    · exact h1
    · rw [Nat.testBit_to_div_mod, h1] at h
      simp at h
  rw [mod_two_pow_succ, h0]
  simp

/-- Main access lemma: the loop accumulates exactly the low fuel bits
of the element at position i of the current level. -/
theorem accessLoop_spec (fuel : Nat) : ∀ (r size : Nat) (zs os : List Nat) (i acc : Nat),
    r + fuel = size → i < (zs ++ os).length →
    accessLoop size r (buildLevels size r fuel zs os).1 (buildLevels size r fuel zs os).2 i acc =
      acc ||| ((zs ++ os).getD i 0 % 2 ^ fuel) := by
  induction fuel with
  | zero =>
    intro r size zs os i acc hr hi
    simp only [buildLevels, accessLoop]
    simp [Nat.mod_one]
  | succ fuel ih =>
    intro r size zs os i acc hr hi
    have hr2 : (r + 1) + fuel = size := by omega
    have hsym : ∀ x, symBit size r x = x.testBit fuel := symBit_fuel hr
    have hsr : size - r - 1 = fuel := by omega
    rw [buildLevels_succ]
    simp only [accessLoop, List.headD_cons, List.tail_cons, hsr]
    set all := zs ++ os with hall
    have hget : bvGet (all.map (symBit size r)) i = symBit size r (all.getD i 0) := by
      rw [bvGet]
      exact getD_map _ all i false hi
    by_cases hb : symBit size r (all.getD i 0) = true
    · simp only [hget, hb, if_true]
      obtain ⟨h1, h2⟩ := fwd_true (symBit size r) all i hi hb
      rw [ih (r + 1) size _ _ _ _ hr2 h1, h2]
      have hbt : (all.getD i 0).testBit fuel = true := by rw [← hsym]; exact hb
      exact (or_mod_succ_true acc (all.getD i 0) fuel hbt).symm
    · have hbf : symBit size r (all.getD i 0) = false := by simpa using hb
      simp only [hget, hbf, Bool.false_eq_true, if_false]
      obtain ⟨h1, h2⟩ := fwd_false (symBit size r) all i hi hbf
      have h1' : bvRank (all.map (symBit size r)) false i <
          ((all.filter (fun y => !symBit size r y)) ++ all.filter (symBit size r)).length := by
        rw [List.length_append]
        omega
      rw [ih (r + 1) size _ _ _ _ hr2 h1', h2]
      have hbt : (all.getD i 0).testBit fuel = false := by rw [← hsym]; exact hbf
      rw [mod_succ_of_testBit_false hbt]

/-- access reproduces the original element truncated to size bits. -/
theorem access_correct (text : List Nat) (size i : Nat) (hi : i < text.length) :
    (newWithSize text size).access i = text.getD i 0 % 2 ^ size := by
  rw [access_unfold, newWithSize_size, newWithSize_rows, newWithSize_partitions]
  have h := accessLoop_spec size 0 size text [] i 0 (by omega)
    (by rw [List.append_nil]; exact hi)
  rw [h, List.append_nil, Nat.zero_or]

/-! ### The ascending phase of select -/

theorem selLoopUp_append (size c : Nat) (l1 l2 : List (Nat × List Bool × Nat)) (e : Nat) :
    selLoopUp size c (l1 ++ l2) e = selLoopUp size c l2 (selLoopUp size c l1 e) := by
  induction l1 generalizing e with
  | nil => rfl
  | cons x rest ih =>
    obtain ⟨r, bv, z⟩ := x
    rw [List.cons_append, selLoopUp, selLoopUp]
    by_cases hb : symBit size r c = true
    · rw [if_pos hb, if_pos hb, ih]
    · rw [if_neg hb, if_neg hb, ih]

/-- Main ascending-chain lemma: starting from the image of position j
under the descending chain (j holding an element matching c on the
remaining bits), the reversed select walk returns exactly j. -/
theorem selLoopUp_spec (fuel : Nat) : ∀ (r size c : Nat) (zs os : List Nat) (j : Nat),
    r + fuel = size → j < (zs ++ os).length →
    matches2 fuel c ((zs ++ os).getD j 0) = true →
    selLoopUp size c
        (enumPairs r (buildLevels size r fuel zs os).1 (buildLevels size r fuel zs os).2).reverse
        (selLoopDown size c r (buildLevels size r fuel zs os).1
          (buildLevels size r fuel zs os).2 j)
      = j := by
  induction fuel with
  | zero =>
    intro r size c zs os j hr hj hm
    simp only [buildLevels, enumPairs, selLoopDown, List.reverse_nil, selLoopUp]
  | succ fuel ih =>
    intro r size c zs os j hr hj hm
    have hr2 : (r + 1) + fuel = size := by omega
    have hsym : ∀ x, symBit size r x = x.testBit fuel := symBit_fuel hr
    rw [buildLevels_succ]
    simp only [enumPairs, selLoopDown, List.headD_cons, List.tail_cons, List.reverse_cons]
    rw [selLoopUp_append]
    set all := zs ++ os with hall
    rw [matches2_succ_iff, Bool.and_eq_true] at hm
    obtain ⟨hm1, hm2⟩ := hm
    rw [beq_iff_eq] at hm2
    have hrowlen : (all.map (symBit size r)).length = all.length := by simp
    have hrowget : (all.map (symBit size r)).getD j false = symBit size r (all.getD j 0) :=
      getD_map _ all j false hj
    by_cases hb : symBit size r c = true
    · have hcb : c.testBit fuel = true := by rw [← hsym]; exact hb
      have hbx : symBit size r (all.getD j 0) = true := by
        rw [hsym, hm2, hcb]
      simp only [if_pos hb]
      obtain ⟨h1, h2⟩ := fwd_true (symBit size r) all j hj hbx
      have hlt : bvRank (all.map (symBit size r)) true j +
          (all.filter (fun y => !symBit size r y)).length <
          ((all.filter (fun y => !symBit size r y)) ++ all.filter (symBit size r)).length := by
        omega
      have hval : ((all.filter (fun y => !symBit size r y)) ++
          all.filter (symBit size r)).getD
            (bvRank (all.map (symBit size r)) true j +
              (all.filter (fun y => !symBit size r y)).length) 0 = all.getD j 0 := by
        rw [Nat.add_comm]
        exact h2
      rw [ih (r + 1) size c _ _ _ hr2 hlt (by rw [hval]; exact hm1)]
      rw [selLoopUp, if_pos hb, Nat.add_sub_cancel]
      show bvSelect (all.map (symBit size r)) true (bvRank (all.map (symBit size r)) true j) = j
      exact bvSelect_bvRank _ true j (by rw [hrowlen]; exact hj) (by rw [hrowget]; exact hbx)
    · have hbf : symBit size r c = false := by simpa using hb
      have hcb : c.testBit fuel = false := by rw [← hsym]; exact hbf
      have hbx : symBit size r (all.getD j 0) = false := by
        rw [hsym, hm2, hcb]
      simp only [if_neg hb]
      obtain ⟨h1, h2⟩ := fwd_false (symBit size r) all j hj hbx
      have hlt : bvRank (all.map (symBit size r)) false j <
          ((all.filter (fun y => !symBit size r y)) ++ all.filter (symBit size r)).length := by
        rw [List.length_append]
        omega
      rw [ih (r + 1) size c _ _ _ hr2 hlt (by rw [h2]; exact hm1)]
      rw [selLoopUp, if_neg hb]
      show bvSelect (all.map (symBit size r)) false (bvRank (all.map (symBit size r)) false j) = j
      exact bvSelect_bvRank _ false j (by rw [hrowlen]; exact hj) (by rw [hrowget]; exact hbx)

/-- select returns the position of the (k+1)-th matching element. -/
theorem select_correct (text : List Nat) (size c k j : Nat) (hj : j < text.length)
    (hmatch : matches2 size c (text.getD j 0) = true)
    (hcount : (text.take j).countP (matches2 size c) = k) :
    (newWithSize text size).select c k = j := by
  rw [select_unfold, newWithSize_size, newWithSize_rows, newWithSize_partitions]
  have hj' : j ≤ (text ++ []).length := by rw [List.append_nil]; omega
  have hdown := selLoopDown_spec size 0 size c text [] j (by omega) hj'
  have heq : selLoopDown size c 0 (buildLevels size 0 size text []).1
      (buildLevels size 0 size text []).2 0 + k =
      selLoopDown size c 0 (buildLevels size 0 size text []).1
        (buildLevels size 0 size text []).2 j := by
    rw [hdown, List.append_nil, hcount]
  rw [heq]
  exact selLoopUp_spec size 0 size c text [] j (by omega)
    (by rw [List.append_nil]; exact hj) (by rw [List.append_nil]; exact hmatch)

/-- Existence of the (k+1)-th matching position when the total count
exceeds k. -/
theorem countP_surj (p : Nat → Bool) (l : List Nat) (k : Nat) (hk : k < l.countP p) :
    ∃ j, j < l.length ∧ p (l.getD j 0) = true ∧ (l.take j).countP p = k := by
  induction l generalizing k with
  | nil => simp at hk
  | cons x xs ih =>
    by_cases hx : p x = true
    · cases k with
      | zero => exact ⟨0, by simp, by simpa using hx, by simp⟩
      | succ k =>
        rw [List.countP_cons_of_pos _ _ hx] at hk
        obtain ⟨j, hj1, hj2, hj3⟩ := ih k (by omega)
        refine ⟨j + 1, by simpa using hj1, by simpa using hj2, ?_⟩
        rw [List.take_succ_cons, List.countP_cons_of_pos _ _ hx, hj3]
    · rw [List.countP_cons_of_neg _ _ hx] at hk
      obtain ⟨j, hj1, hj2, hj3⟩ := ih k hk
      refine ⟨j + 1, by simpa using hj1, by simpa using hj2, ?_⟩
      rw [List.take_succ_cons, List.countP_cons_of_neg _ _ hx, hj3]

/-! ### Safety of the ascending phase -/

theorem selUpSafe_append (size c : Nat) (l1 l2 : List (Nat × List Bool × Nat)) (e : Nat) :
    selUpSafe size c (l1 ++ l2) e =
      (selUpSafe size c l1 e && selUpSafe size c l2 (selLoopUp size c l1 e)) := by
  induction l1 generalizing e with
  | nil => simp [selUpSafe, selLoopUp]
  | cons x rest ih =>
    obtain ⟨r, bv, z⟩ := x
    rw [List.cons_append, selUpSafe, selUpSafe, selLoopUp]
    by_cases hb : symBit size r c = true
    · rw [if_pos hb, if_pos hb, if_pos hb, ih]
      simp [Bool.and_assoc]
    · rw [if_neg hb, if_neg hb, if_neg hb, ih]
      simp [Bool.and_assoc]

/-- Safety counterpart of the ascending-chain lemma: along the same
walk, no subtraction underflows and every select request is within the
occurrence count of its row. -/
theorem selUpSafe_spec (fuel : Nat) : ∀ (r size c : Nat) (zs os : List Nat) (j : Nat),
    r + fuel = size → j < (zs ++ os).length →
    matches2 fuel c ((zs ++ os).getD j 0) = true →
    selUpSafe size c
        (enumPairs r (buildLevels size r fuel zs os).1 (buildLevels size r fuel zs os).2).reverse
        (selLoopDown size c r (buildLevels size r fuel zs os).1
          (buildLevels size r fuel zs os).2 j)
      = true := by
  induction fuel with
  | zero =>
    intro r size c zs os j hr hj hm
    simp only [buildLevels, enumPairs, List.reverse_nil, selUpSafe]
  | succ fuel ih =>
    intro r size c zs os j hr hj hm
    have hr2 : (r + 1) + fuel = size := by omega
    have hsym : ∀ x, symBit size r x = x.testBit fuel := symBit_fuel hr
    rw [buildLevels_succ]
    simp only [enumPairs, selLoopDown, List.headD_cons, List.tail_cons, List.reverse_cons]
    rw [selUpSafe_append, Bool.and_eq_true]
    set all := zs ++ os with hall
    rw [matches2_succ_iff, Bool.and_eq_true] at hm
    obtain ⟨hm1, hm2⟩ := hm
    rw [beq_iff_eq] at hm2
    have hrowlen : (all.map (symBit size r)).length = all.length := by simp
    have hrowget : (all.map (symBit size r)).getD j false = symBit size r (all.getD j 0) :=
      getD_map _ all j false hj
    by_cases hb : symBit size r c = true
    · have hcb : c.testBit fuel = true := by rw [← hsym]; exact hb
      have hbx : symBit size r (all.getD j 0) = true := by
        rw [hsym, hm2, hcb]
      simp only [if_pos hb]
      obtain ⟨h1, h2⟩ := fwd_true (symBit size r) all j hj hbx
      have hlt : bvRank (all.map (symBit size r)) true j +
          (all.filter (fun y => !symBit size r y)).length <
          ((all.filter (fun y => !symBit size r y)) ++ all.filter (symBit size r)).length := by
        omega
      have hval : ((all.filter (fun y => !symBit size r y)) ++
          all.filter (symBit size r)).getD
            (bvRank (all.map (symBit size r)) true j +
              (all.filter (fun y => !symBit size r y)).length) 0 = all.getD j 0 := by
        rw [Nat.add_comm]
        exact h2
      refine ⟨ih (r + 1) size c _ _ _ hr2 hlt (by rw [hval]; exact hm1), ?_⟩
      rw [selLoopUp_spec fuel (r + 1) size c _ _ _ hr2 hlt (by rw [hval]; exact hm1)]
      rw [selUpSafe, if_pos hb]
      have hlt2 : bvRank (all.map (symBit size r)) true j <
          bvRank (all.map (symBit size r)) true (all.map (symBit size r)).length :=
        bvRank_lt_total _ true j (by rw [hrowlen]; exact hj) (by rw [hrowget]; exact hbx)
      simp only [selUpSafe, Bool.and_true, Bool.and_eq_true, decide_eq_true_eq]
      refine ⟨by omega, ?_⟩
      rw [Nat.add_sub_cancel]
      exact hlt2
    · have hbf : symBit size r c = false := by simpa using hb
      have hcb : c.testBit fuel = false := by rw [← hsym]; exact hbf
      have hbx : symBit size r (all.getD j 0) = false := by
        rw [hsym, hm2, hcb]
      simp only [if_neg hb]
      obtain ⟨h1, h2⟩ := fwd_false (symBit size r) all j hj hbx
      have hlt : bvRank (all.map (symBit size r)) false j <
          ((all.filter (fun y => !symBit size r y)) ++ all.filter (symBit size r)).length := by
        rw [List.length_append]
        omega
      refine ⟨ih (r + 1) size c _ _ _ hr2 hlt (by rw [h2]; exact hm1), ?_⟩
      rw [selLoopUp_spec fuel (r + 1) size c _ _ _ hr2 hlt (by rw [h2]; exact hm1)]
      rw [selUpSafe, if_neg hb]
      have hlt2 : bvRank (all.map (symBit size r)) false j <
          bvRank (all.map (symBit size r)) false (all.map (symBit size r)).length :=
        bvRank_lt_total _ false j (by rw [hrowlen]; exact hj) (by rw [hrowget]; exact hbx)
      simp only [selUpSafe, Bool.and_true, Bool.and_eq_true, decide_eq_true_eq]
      exact hlt2

/-! ### Structural invariants of construction -/

theorem filter_length_split (p : Nat → Bool) (l : List Nat) :
    (l.filter (fun y => !p y)).length + (l.filter p).length = l.length := by
  induction l with
  | nil => rfl
  | cons x xs ih =>
    by_cases hx : p x = true
    · rw [List.filter_cons_of_pos hx, List.filter_cons_of_neg (by simp [hx]),
        List.length_cons, List.length_cons]
      omega
    · have hx2 : p x = false := by simpa using hx
      rw [List.filter_cons_of_neg hx, List.filter_cons_of_pos (by simp [hx2]),
        List.length_cons, List.length_cons]
      omega

theorem buildLevels_invariants (fuel : Nat) : ∀ (r size : Nat) (zs os : List Nat),
    (buildLevels size r fuel zs os).1.length = fuel ∧
      (buildLevels size r fuel zs os).2.length = fuel ∧
      (∀ row ∈ (buildLevels size r fuel zs os).1, row.length = (zs ++ os).length) ∧
      (∀ z ∈ (buildLevels size r fuel zs os).2, z ≤ (zs ++ os).length) := by
  induction fuel with
  | zero =>
    intro r size zs os
    simp [buildLevels]
  | succ fuel ih =>
    intro r size zs os
    rw [buildLevels_succ]
    obtain ⟨ih1, ih2, ih3, ih4⟩ := ih (r + 1) size
      ((zs ++ os).filter (fun y => !symBit size r y)) ((zs ++ os).filter (symBit size r))
    have hsplit : ((zs ++ os).filter (fun y => !symBit size r y)).length +
        ((zs ++ os).filter (symBit size r)).length = (zs ++ os).length :=
      filter_length_split (symBit size r) (zs ++ os)
    have hnextlen : ((zs ++ os).filter (fun y => !symBit size r y) ++
        (zs ++ os).filter (symBit size r)).length = (zs ++ os).length := by
      rw [List.length_append]
      omega
    refine ⟨by rw [List.length_cons, ih1], by rw [List.length_cons, ih2], ?_, ?_⟩
    · intro row hrow
      rcases List.mem_cons.mp hrow with h | h
      · rw [h]
        simp
      · rw [ih3 row h, hnextlen]
    · intro z hz
      rcases List.mem_cons.mp hz with h | h
      · rw [h]
        omega
      · have := ih4 z h
        omega

theorem bvRank_full (bv : List Bool) (b : Bool) :
    bvRank bv b bv.length = bv.countP (fun x => x == b) := by
  rw [bvRank_eq_countP, List.take_length]

/-- Each partition entry equals the number of 0 bits of its whole row. -/
theorem buildLevels_partition_rank0 (fuel : Nat) : ∀ (r size : Nat) (zs os : List Nat) (t : Nat),
    t < fuel →
    (buildLevels size r fuel zs os).2.getD t 0 =
      bvRank ((buildLevels size r fuel zs os).1.getD t []) false
        ((buildLevels size r fuel zs os).1.getD t []).length := by
  induction fuel with
  | zero =>
    intro r size zs os t ht
    omega
  | succ fuel ih =>
    intro r size zs os t ht
    rw [buildLevels_succ]
    cases t with
    | zero =>
      simp only [List.getD_cons_zero]
      rw [bvRank_full, List.countP_map]
      have : ((fun x => x == false) ∘ symBit size r) = fun y => !symBit size r y := by
        funext y
        simp [beq_false_eq]
      rw [this, List.countP_eq_length_filter]
    | succ t =>
      simp only [List.getD_cons_succ]
      exact ih (r + 1) size _ _ t (by omega)

/-! ### Truncation invariance -/

theorem testBit_congr_of_mod {c c2 size i : Nat} (h : c % 2 ^ size = c2 % 2 ^ size)
    (hi : i < size) : c.testBit i = c2.testBit i := by
  have h1 : (c % 2 ^ size).testBit i = c.testBit i := by
    rw [Nat.testBit_mod_two_pow]
    simp [hi]
  have h2 : (c2 % 2 ^ size).testBit i = c2.testBit i := by
    rw [Nat.testBit_mod_two_pow]
    simp [hi]
  rw [← h1, ← h2, h]

theorem symBit_congr {size c c2 : Nat} (h : c % 2 ^ size = c2 % 2 ^ size) (r : Nat)
    (hs : 0 < size) : symBit size r c = symBit size r c2 := by
  rw [symBit_eq_testBit, symBit_eq_testBit]
  exact testBit_congr_of_mod h (by omega)

theorem selLoopDown_congr {size c c2 : Nat} (h : ∀ r, symBit size r c = symBit size r c2) :
    ∀ (r : Nat) (rows : List (List Bool)) (parts : List Nat) (s : Nat),
      selLoopDown size c r rows parts s = selLoopDown size c2 r rows parts s := by
  intro r rows
  induction rows generalizing r with
  | nil => intro parts s; rfl
  | cons bv rest ih =>
    intro parts s
    rw [selLoopDown, selLoopDown, h r]
    by_cases hb : symBit size r c2 = true
    · rw [if_pos hb, if_pos hb, ih]
    · rw [if_neg hb, if_neg hb, ih]

theorem selLoopUp_congr {size c c2 : Nat} (h : ∀ r, symBit size r c = symBit size r c2) :
    ∀ (l : List (Nat × List Bool × Nat)) (e : Nat),
      selLoopUp size c l e = selLoopUp size c2 l e := by
  intro l
  induction l with
  | nil => intro e; rfl
  | cons x rest ih =>
    intro e
    obtain ⟨r, bv, z⟩ := x
    rw [selLoopUp, selLoopUp, h r]
    by_cases hb : symBit size r c2 = true
    · rw [if_pos hb, if_pos hb, ih]
    · rw [if_neg hb, if_neg hb, ih]

/-- Building from the truncated sequence produces the same rows and
partitions as building from the original sequence. -/
theorem buildLevels_mod (fuel : Nat) : ∀ (r size : Nat) (zs os : List Nat),
    r + fuel = size →
    buildLevels size r fuel (zs.map (fun x => x % 2 ^ size)) (os.map (fun x => x % 2 ^ size)) =
      buildLevels size r fuel zs os := by
  induction fuel with
  | zero =>
    intro r size zs os hr
    rfl
  | succ fuel ih =>
    intro r size zs os hr
    have hsym : ∀ x, symBit size r (x % 2 ^ size) = symBit size r x := by
      intro x
      rw [symBit_eq_testBit, symBit_eq_testBit]
      exact testBit_congr_of_mod (Nat.mod_mod_of_dvd x (dvd_refl (2 ^ size))) (by omega)
    rw [buildLevels_succ, buildLevels_succ, ← List.map_append]
    have hrow : ((zs ++ os).map (fun x => x % 2 ^ size)).map (symBit size r) =
        (zs ++ os).map (symBit size r) := by
      rw [List.map_map]
      apply List.map_congr_left
      intro x _
      exact hsym x
    have hfz : ((zs ++ os).map (fun x => x % 2 ^ size)).filter (fun y => !symBit size r y) =
        ((zs ++ os).filter (fun y => !symBit size r y)).map (fun x => x % 2 ^ size) := by
      rw [List.filter_map]
      congr 1
      apply List.filter_congr
      intro x _
      simp only [Function.comp_apply, hsym x]
    have hfo : ((zs ++ os).map (fun x => x % 2 ^ size)).filter (symBit size r) =
        ((zs ++ os).filter (symBit size r)).map (fun x => x % 2 ^ size) := by
      rw [List.filter_map]
      congr 1
      apply List.filter_congr
      intro x _
      simp only [Function.comp_apply, hsym x]
    rw [hrow, hfz, hfo, ih (r + 1) size _ _ (by omega)]
    simp

/-! ### The claims -/

/-- C1: Round-trip: for every input sequence, every bit-width size, and
every index i with 0 <= i < n, access(i) on the matrix built by
new_with_size(sequence, size) returns the original element at position
i truncated to its low size bits. -/
theorem claim1_access_roundtrip (text : List Nat) (size i : Nat) (hi : i < text.length) :
    (newWithSize text size).access i = text.getD i 0 % 2 ^ size :=
  access_correct text size i hi

theorem claim1_access_roundtrip_witness :
    9 < ([4, 7, 6, 5, 3, 2, 1, 0, 1, 4, 1, 7] : List Nat).length ∧
      (newWithSize [4, 7, 6, 5, 3, 2, 1, 0, 1, 4, 1, 7] 3).access 9 = 4 % 2 ^ 3 :=
  ⟨by decide, claim1_access_roundtrip [4, 7, 6, 5, 3, 2, 1, 0, 1, 4, 1, 7] 3 9 (by decide)⟩

/-- C2: Rank consistency: rank(c, k) equals the number of elements
equal to c (compared on their low size bits) among the first min(k, n)
elements of the original sequence; rank(c, 0) = 0; rank(c, k) is
non-decreasing in k. -/
theorem claim2_rank_consistency (text : List Nat) (size c k : Nat) :
    (newWithSize text size).rank c k =
        (text.take (min k text.length)).countP (matches2 size c) ∧
      (newWithSize text size).rank c 0 = 0 ∧
      ∀ k2, k ≤ k2 → (newWithSize text size).rank c k ≤ (newWithSize text size).rank c k2 := by
  refine ⟨rank_correct text size c k, ?_, ?_⟩
  · rw [rank_correct]
    simp
  · intro k2 hk
    rw [rank_correct, rank_correct]
    exact countP_take_mono _ _ (by omega)

theorem claim2_rank_consistency_witness :
    (newWithSize [4, 7, 6, 5, 3, 2, 1, 0, 1, 4, 1, 7] 3).rank 1 8 ≤
      (newWithSize [4, 7, 6, 5, 3, 2, 1, 0, 1, 4, 1, 7] 3).rank 1 12 :=
  (claim2_rank_consistency [4, 7, 6, 5, 3, 2, 1, 0, 1, 4, 1, 7] 3 1 8).2.2 12 (by decide)

/-- C3: Select/rank inverse: for every k with k < rank(c, n),
access(select(c, k)) equals c truncated to size bits,
rank(c, select(c, k)) = k, and select(c, k) is strictly increasing in k
over that range. -/
theorem claim3_select_rank_inverse (text : List Nat) (size c k : Nat)
    (hk : k < (newWithSize text size).rank c (newWithSize text size).len) :
    (newWithSize text size).access ((newWithSize text size).select c k) = c % 2 ^ size ∧
      (newWithSize text size).rank c ((newWithSize text size).select c k) = k ∧
      ∀ k2, k < k2 → k2 < (newWithSize text size).rank c (newWithSize text size).len →
        (newWithSize text size).select c k < (newWithSize text size).select c k2 := by
  rw [newWithSize_len] at hk
  have htot : (newWithSize text size).rank c text.length = text.countP (matches2 size c) := by
    rw [rank_correct, Nat.min_self, List.take_length]
  rw [htot] at hk
  obtain ⟨j, hj1, hj2, hj3⟩ := countP_surj _ text k hk
  have hsel : (newWithSize text size).select c k = j :=
    select_correct text size c k j hj1 hj2 hj3
  refine ⟨?_, ?_, ?_⟩
  · rw [hsel, access_correct text size j hj1]
    rw [matches2, beq_iff_eq] at hj2
    exact hj2
  · rw [hsel, rank_correct, Nat.min_eq_left (by omega), hj3]
  · intro k2 hk1 hk2
    rw [newWithSize_len, htot] at hk2
    obtain ⟨j2, hj21, hj22, hj23⟩ := countP_surj _ text k2 hk2
    rw [hsel, select_correct text size c k2 j2 hj21 hj22 hj23]
    by_contra hle
    push_neg at hle
    have hmono := countP_take_mono (matches2 size c) text hle
    omega

theorem claim3_select_rank_inverse_witness :
    (newWithSize [4, 7, 6, 5, 3, 2, 1, 0, 1, 4, 1, 7] 3).select 1 0 <
      (newWithSize [4, 7, 6, 5, 3, 2, 1, 0, 1, 4, 1, 7] 3).select 1 1 :=
  (claim3_select_rank_inverse [4, 7, 6, 5, 3, 2, 1, 0, 1, 4, 1, 7] 3 1 0 (by decide)).2.2 1
    (by decide) (by decide)

/-- C4: Structural invariants of construction: rows.len = size, every
row has length n, partitions.len = size, and 0 <= partitions[r] <= n
for every r < size. -/
theorem claim4_construction_invariants (text : List Nat) (size : Nat) :
    (newWithSize text size).rows.length = size ∧
      (newWithSize text size).partitions.length = size ∧
      ∀ r, r < size →
        ((newWithSize text size).rows.getD r []).length = text.length ∧
          0 ≤ (newWithSize text size).partitions.getD r 0 ∧
          (newWithSize text size).partitions.getD r 0 ≤ text.length := by
  obtain ⟨h1, h2, h3, h4⟩ := buildLevels_invariants size 0 size text []
  rw [newWithSize_rows, newWithSize_partitions]
  refine ⟨h1, h2, ?_⟩
  intro r hr
  have hrowmem : (buildLevels size 0 size text []).1.getD r [] ∈
      (buildLevels size 0 size text []).1 := by
    rw [List.getD_eq_getElem _ _ (by rw [h1]; exact hr)]
    exact List.getElem_mem _
  have hzmem : (buildLevels size 0 size text []).2.getD r 0 ∈
      (buildLevels size 0 size text []).2 := by
    rw [List.getD_eq_getElem _ _ (by rw [h2]; exact hr)]
    exact List.getElem_mem _
  refine ⟨?_, Nat.zero_le _, ?_⟩
  · rw [h3 _ hrowmem, List.append_nil]
  · have h5 := h4 _ hzmem
    rw [List.append_nil] at h5
    exact h5

theorem claim4_construction_invariants_witness :
    ((newWithSize [1, 2, 3] 2).rows.getD 1 []).length = 3 ∧
      0 ≤ (newWithSize [1, 2, 3] 2).partitions.getD 1 0 ∧
      (newWithSize [1, 2, 3] 2).partitions.getD 1 0 ≤ 3 :=
  (claim4_construction_invariants [1, 2, 3] 2).2.2 1 (by decide)

/-- C5: Rank clamping: rank never errors; for k > n rank(c, k) =
rank(c, n); rank(c, 0) = 0; on a matrix built from the empty sequence
rank(c, k) = 0 for every c and k. -/
theorem claim5_rank_clamping (text : List Nat) (size c : Nat) :
    (∀ k, text.length < k →
        (newWithSize text size).rank c k = (newWithSize text size).rank c text.length) ∧
      (newWithSize text size).rank c 0 = 0 ∧
      ∀ k, (newWithSize [] size).rank c k = 0 := by
  refine ⟨?_, ?_, ?_⟩
  · intro k hk
    rw [rank_correct, rank_correct]
    have h : min k text.length = min text.length text.length := by omega
    rw [h]
  · rw [rank_correct]
    simp
  · intro k
    rw [rank_correct]
    simp

theorem claim5_rank_clamping_witness :
    (newWithSize [1, 2, 3] 2).rank 1 10 = (newWithSize [1, 2, 3] 2).rank 1 3 :=
  (claim5_rank_clamping [1, 2, 3] 2 1).1 10 (by decide)

/-- C6: Silent truncation: symbols agreeing on their low size bits give
identical rank and select results for every k, and building from the
truncated sequence yields identical rows and partitions. -/
theorem claim6_silent_truncation (text : List Nat) (size c c2 k : Nat)
    (h : c % 2 ^ size = c2 % 2 ^ size) :
    (newWithSize text size).rank c k = (newWithSize text size).rank c2 k ∧
      (newWithSize text size).select c k = (newWithSize text size).select c2 k ∧
      (newWithSize (text.map (fun x => x % 2 ^ size)) size).rows =
        (newWithSize text size).rows ∧
      (newWithSize (text.map (fun x => x % 2 ^ size)) size).partitions =
        (newWithSize text size).partitions := by
  have hbuild : buildLevels size 0 size (text.map (fun x => x % 2 ^ size)) [] =
      buildLevels size 0 size text [] :=
    buildLevels_mod size 0 size text [] (by omega)
  refine ⟨?_, ?_, ?_, ?_⟩
  · rw [rank_correct, rank_correct]
    apply List.countP_congr
    intro x _
    rw [matches2, matches2, h]
  · rcases Nat.eq_zero_or_pos size with hs | hs
    · subst hs
      rfl
    · have hsym : ∀ r, symBit size r c = symBit size r c2 := fun r => symBit_congr h r hs
      rw [select_unfold, select_unfold, newWithSize_size, selLoopDown_congr hsym,
        selLoopUp_congr hsym]
  · rw [newWithSize_rows, newWithSize_rows, hbuild]
  · rw [newWithSize_partitions, newWithSize_partitions, hbuild]

theorem claim6_silent_truncation_witness :
    (newWithSize [4, 7, 6, 5, 3, 2, 1, 0, 1, 4, 1, 7] 3).rank 9 12 =
      (newWithSize [4, 7, 6, 5, 3, 2, 1, 0, 1, 4, 1, 7] 3).rank 1 12 :=
  (claim6_silent_truncation [4, 7, 6, 5, 3, 2, 1, 0, 1, 4, 1, 7] 3 9 1 12 (by decide)).1

/-- C7: Degenerate width: size = 0 produces zero rows, every symbol
reduces to value 0 (access returns 0 and rank counts every prefix
element), rank(0, n) = n, and every query is total. -/
theorem claim7_degenerate_width (text : List Nat) (c k : Nat) :
    (newWithSize text 0).rows = [] ∧
      (newWithSize text 0).access k = 0 ∧
      (newWithSize text 0).rank c k = min k text.length ∧
      (newWithSize text 0).rank 0 text.length = text.length ∧
      (newWithSize text 0).select c k = k := by
  refine ⟨rfl, rfl, ?_, ?_, ?_⟩
  · rw [rank_correct]
    have h : (text.take (min k text.length)).countP (matches2 0 c) =
        (text.take (min k text.length)).length := by
      rw [List.countP_eq_length]
      exact fun x _ => matches2_zero c x
    rw [h, List.length_take]
    omega
  · rw [rank_correct, Nat.min_self, List.take_length, List.countP_eq_length]
    exact fun x _ => matches2_zero 0 x
  · show 0 + k = k
    exact Nat.zero_add k

/-- C8: Select safety under its precondition: for k < rank(c, n) the
ascending phase of select never underflows the running offset below the
partition entry, and every select0/select1 request stays within the
row's occurrence count. -/
theorem claim8_select_ascend_safe (text : List Nat) (size c k : Nat)
    (hk : k < (newWithSize text size).rank c (newWithSize text size).len) :
    selUpSafe (newWithSize text size).size c
        (enumPairs 0 (newWithSize text size).rows (newWithSize text size).partitions).reverse
        (selLoopDown (newWithSize text size).size c 0 (newWithSize text size).rows
          (newWithSize text size).partitions 0 + k) = true := by
  rw [newWithSize_len] at hk
  have htot : (newWithSize text size).rank c text.length = text.countP (matches2 size c) := by
    rw [rank_correct, Nat.min_self, List.take_length]
  rw [htot] at hk
  obtain ⟨j, hj1, hj2, hj3⟩ := countP_surj _ text k hk
  rw [newWithSize_rows, newWithSize_partitions, newWithSize_size]
  have heq : selLoopDown size c 0 (buildLevels size 0 size text []).1
      (buildLevels size 0 size text []).2 0 + k =
      selLoopDown size c 0 (buildLevels size 0 size text []).1
        (buildLevels size 0 size text []).2 j := by
    rw [selLoopDown_spec size 0 size c text [] j (by omega)
      (by rw [List.append_nil]; omega), List.append_nil, hj3]
  rw [heq]
  exact selUpSafe_spec size 0 size c text [] j (by omega)
    (by rw [List.append_nil]; exact hj1) (by rw [List.append_nil]; exact hj2)

theorem claim8_select_ascend_safe_witness :
    selUpSafe (newWithSize [4, 7, 6, 5, 3, 2, 1, 0, 1, 4, 1, 7] 3).size 1
        (enumPairs 0 (newWithSize [4, 7, 6, 5, 3, 2, 1, 0, 1, 4, 1, 7] 3).rows
          (newWithSize [4, 7, 6, 5, 3, 2, 1, 0, 1, 4, 1, 7] 3).partitions).reverse
        (selLoopDown (newWithSize [4, 7, 6, 5, 3, 2, 1, 0, 1, 4, 1, 7] 3).size 1 0
          (newWithSize [4, 7, 6, 5, 3, 2, 1, 0, 1, 4, 1, 7] 3).rows
          (newWithSize [4, 7, 6, 5, 3, 2, 1, 0, 1, 4, 1, 7] 3).partitions 0 + 2) = true :=
  claim8_select_ascend_safe [4, 7, 6, 5, 3, 2, 1, 0, 1, 4, 1, 7] 3 1 2 (by decide)

/-- C9: Partition/row coherence: partitions[r] equals the number of 0
bits in row r's entire bit-vector. -/
theorem claim9_partition_coherence (text : List Nat) (size r : Nat) (hr : r < size) :
    (newWithSize text size).partitions.getD r 0 =
      bvRank ((newWithSize text size).rows.getD r []) false
        ((newWithSize text size).rows.getD r []).length := by
  rw [newWithSize_rows, newWithSize_partitions]
  exact buildLevels_partition_rank0 size 0 size text [] r hr

theorem claim9_partition_coherence_witness :
    (newWithSize [4, 7, 6, 5, 3, 2, 1, 0, 1, 4, 1, 7] 3).partitions.getD 1 0 =
      bvRank ((newWithSize [4, 7, 6, 5, 3, 2, 1, 0, 1, 4, 1, 7] 3).rows.getD 1 []) false
        ((newWithSize [4, 7, 6, 5, 3, 2, 1, 0, 1, 4, 1, 7] 3).rows.getD 1 []).length :=
  claim9_partition_coherence [4, 7, 6, 5, 3, 2, 1, 0, 1, 4, 1, 7] 3 1 (by decide)

/-- C10: Rank is bounded: rank(c, k) <= min(k, len()). -/
theorem claim10_rank_bounded (text : List Nat) (size c k : Nat) :
    (newWithSize text size).rank c k ≤ min k (newWithSize text size).len := by
  rw [rank_correct, newWithSize_len]
  have h1 : (text.take (min k text.length)).countP (matches2 size c) ≤
      (text.take (min k text.length)).length := List.countP_le_length _
  rw [List.length_take] at h1
  omega

example : (newWithSize [4, 7, 6, 5, 3, 2, 1, 0, 1, 4, 1, 7] 3).access 0 = 4 := by decide
example : (newWithSize [4, 7, 6, 5, 3, 2, 1, 0, 1, 4, 1, 7] 3).access 9 = 4 := by decide
example : (newWithSize [4, 7, 6, 5, 3, 2, 1, 0, 1, 4, 1, 7] 3).rank 1 8 = 1 := by decide
example : (newWithSize [4, 7, 6, 5, 3, 2, 1, 0, 1, 4, 1, 7] 3).select 1 0 = 6 := by decide
example : (newWithSize [4, 7, 6, 5, 3, 2, 1, 0, 1, 4, 1, 7] 3).select 1 1 = 8 := by decide
